import Mathlib

/-!
Verification of the kvdbd storage abstraction layer (`src/db/api.rs`).

The embedding models byte sequences (`Vec<u8>`) as `List Nat`, the backend
`HashMap<Vec<u8>, Vec<u8>>` as a duplicate-free association list whose
list order stands for the map's (arbitrary but fixed) enumeration order,
and `Result<T, &'static str>` as `Except String T`.  The potential panic
of `unwrap()` inside `apply_batch` is modelled by an outer `Option`.
-/

/-- A key is an opaque byte sequence (`Vec<u8>`). -/
abbrev Key := List Nat

/-- A value is an opaque byte sequence (`Vec<u8>`). -/
abbrev Value := List Nat

/-- Backend errors are static strings (`&'static str`). -/
abbrev Err := String

/-- Embeds `MutationOp` from `api.rs`: the tag of one mutation. -/
inductive MutationOp
  | Insert
  | Remove
  deriving DecidableEq

/-- Embeds `Mutation` from `api.rs`: one mutation descriptor. -/
structure Mutation where
  op : MutationOp
  key : Key
  value : Option Value
  deriving DecidableEq

/-- Embeds `Batch` from `api.rs`: an ordered sequence of mutations. -/
structure Batch where
  ops : List Mutation
  deriving DecidableEq

/-- Embeds `Batch::default`: the empty batch. -/
def Batch.default : Batch := ⟨[]⟩

/-- Embeds `Batch::insert`: push an `Insert` mutation carrying `Some(value)`. -/
def Batch.insert (b : Batch) (key_in : Key) (value_in : Value) : Batch :=
  ⟨b.ops ++ [⟨MutationOp.Insert, key_in, some value_in⟩]⟩

/-- Embeds `Batch::remove`: push a `Remove` mutation carrying `None`. -/
def Batch.remove (b : Batch) (key_in : Key) : Batch :=
  ⟨b.ops ++ [⟨MutationOp.Remove, key_in, none⟩]⟩

/-- Embeds `Config` from `api.rs`. -/
structure Config where
  path : String
  read_only : Bool
  deriving DecidableEq

/-- Embeds `ConfigBuilder` from `api.rs`: both options start unset. -/
structure ConfigBuilder where
  path : Option String
  read_only : Option Bool
  deriving DecidableEq

/-- Embeds `ConfigBuilder::new`. -/
def ConfigBuilder.new : ConfigBuilder := ⟨none, none⟩

/-- Embeds `ConfigBuilder::path`: set the path option; the Rust setter returns
`&mut self`, modelled by returning the updated builder. -/
def ConfigBuilder.set_path (b : ConfigBuilder) (path_in : String) : ConfigBuilder :=
  { b with path := some path_in }

/-- Embeds `ConfigBuilder::read_only`: set the read-only option; the Rust setter
returns `&mut self`, modelled by returning the updated builder. -/
def ConfigBuilder.set_read_only (b : ConfigBuilder) (val_in : Bool) : ConfigBuilder :=
  { b with read_only := some val_in }

/-- Embeds `ConfigBuilder::build`: materialize a `Config`, defaulting unset
options to `"./db"` and `false`. -/
def ConfigBuilder.build (b : ConfigBuilder) : Config :=
  { path :=
      match b.path with
      | none => "./db"
      | some p => p,
    read_only :=
      match b.read_only with
      | none => false
      | some v => v }

/-- Embeds `KeyList` from `api.rs`: one iteration page. -/
structure KeyList where
  keys : List Key
  list_end : Bool
  deriving DecidableEq

/-- Embeds `MAX_ITER_KEYS` from `api.rs`. -/
def MAX_ITER_KEYS : Nat := 1000

/-- The state of the backend `HashMap<Vec<u8>, Vec<u8>>`: an association
list; real map states have pairwise distinct keys, and the list order
stands for the map's enumeration order. -/
abbrev HMap := List (Key × Value)

/-- Embeds `HashMap::get`. -/
def hmGet (m : HMap) (k : Key) : Option Value :=
  (m.find? (fun p => p.1 == k)).map Prod.snd

/-- Embeds `HashMap::insert`: replace the value in place when the key is bound,
otherwise add a new binding (placed at the end of the enumeration). -/
def hmInsert (m : HMap) (k : Key) (v : Value) : HMap :=
  if m.any (fun p => p.1 == k) then
    m.map (fun p => if p.1 == k then (k, v) else p)
  else
    m ++ [(k, v)]

/-- Embeds `HashMap::remove`: the removed value (if any) and the new state. -/
def hmRemove (m : HMap) (k : Key) : Option Value × HMap :=
  match m.find? (fun p => p.1 == k) with
  | none => (none, m)
  | some p => (some p.2, m.filter (fun q => !(q.1 == k)))

/-- Embeds `MemDb` from `api.rs`: the reference in-memory backend. -/
structure MemDb where
  db : HMap
  deriving DecidableEq

/-- Embeds `MemDb::clear` (`Db` impl): `self.db.clear(); Ok(true)`. -/
def MemDb.clear (_s : MemDb) : Except Err (Bool × MemDb) :=
  .ok (true, ⟨[]⟩)

/-- Embeds `MemDb::get` (`Db` impl). -/
def MemDb.get (s : MemDb) (key : Key) : Except Err (Option Value) :=
  match hmGet s.db key with
  | none => .ok none
  | some val => .ok (some val)

/-- The loop body of `MemDb::iter_keys`: walk the enumeration order with
the `capture` flag and the accumulated page, returning the final
`KeyList` (`list_end` starts `true` and is set `false` only at the
truncation break). -/
def iterKeysGo (start_key : Option Key) : List Key → Bool → List Key → KeyList
  | [], _capture, acc => ⟨acc, true⟩
  | key :: rest, capture, acc =>
    if capture = false then
      match start_key with
      | none => iterKeysGo start_key rest capture (acc ++ [key])
      | some prev_key =>
        if key == prev_key then iterKeysGo start_key rest true acc
        else iterKeysGo start_key rest capture acc
    else
      let acc2 := acc ++ [key]
      if MAX_ITER_KEYS ≤ acc2.length then ⟨acc2, false⟩
      else iterKeysGo start_key rest capture acc2

/-- Embeds `MemDb::iter_keys` (`Db` impl). -/
def MemDb.iter_keys (s : MemDb) (start_key : Option Key) : Except Err KeyList :=
  .ok (iterKeysGo start_key (s.db.map Prod.fst) false [])

/-- Embeds `MemDb::put` (`Db` impl). -/
def MemDb.put (s : MemDb) (key : Key) (val : Value) : Except Err (Bool × MemDb) :=
  .ok (true, ⟨hmInsert s.db key val⟩)

/-- Embeds `MemDb::del` (`Db` impl): `match self.db.remove(key)`. -/
def MemDb.del (s : MemDb) (key : Key) : Except Err (Bool × MemDb) :=
  match hmRemove s.db key with
  | (none, m) => .ok (false, ⟨m⟩)
  | (some _v, m) => .ok (true, ⟨m⟩)

/-- One step of the `apply_batch` loop and its recursion; `none` models
the panic of `unwrap()` on a value-less `Insert` mutation. -/
def applyOps : HMap → List Mutation → Option HMap
  | m, [] => some m
  | m, dbm :: rest =>
    match dbm.op with
    | MutationOp.Insert =>
      match dbm.value with
      | none => none
      | some val => applyOps (hmInsert m dbm.key val) rest
    | MutationOp.Remove => applyOps ((hmRemove m dbm.key).2) rest

/-- Embeds `MemDb::apply_batch` (`Db` impl): apply every mutation in submission
order, then `Ok(true)`; `none` models the `unwrap()` panic. -/
def MemDb.apply_batch (s : MemDb) (batch : Batch) : Option (Except Err (Bool × MemDb)) :=
  (applyOps s.db batch.ops).map (fun m => Except.ok (true, ⟨m⟩))

/-- Embeds `MemDriver` from `api.rs`. -/
structure MemDriver where
  deriving DecidableEq

/-- Embeds `MemDriver::start_db` (`Driver` impl): ignores the config and returns
a fresh empty `MemDb`. -/
def MemDriver.start_db (_d : MemDriver) (_cfg : Config) : Except Err MemDb :=
  .ok ⟨[]⟩

/-- A client-side batch-building step: one call to `Batch::insert` or
`Batch::remove`. -/
inductive BatchCmd
  | ins (key : Key) (val : Value)
  | rem (key : Key)
  deriving DecidableEq

/-- The batch obtained from `Batch::default()` by issuing the calls in
`cmds` in order. -/
def buildBatch (cmds : List BatchCmd) : Batch :=
  cmds.foldl
    (fun b c =>
      match c with
      | BatchCmd.ins k v => b.insert k v
      | BatchCmd.rem k => b.remove k)
    Batch.default

/-- The key a building step touches. -/
def BatchCmd.key : BatchCmd → Key
  | BatchCmd.ins k _ => k
  | BatchCmd.rem k => k

/-- The effect of a building step on its key: `some v` for an insert,
`none` (absence) for a remove. -/
def BatchCmd.effect : BatchCmd → Option Value
  | BatchCmd.ins _ v => some v
  | BatchCmd.rem _ => none

/-- The mutation descriptor a building step pushes. -/
def BatchCmd.toMutation : BatchCmd → Mutation
  | BatchCmd.ins k v => ⟨MutationOp.Insert, k, some v⟩
  | BatchCmd.rem k => ⟨MutationOp.Remove, k, none⟩

/-- The effect of the last command in `cmds` touching `k`: `some (some v)`
for a final insert, `some none` for a final remove, `none` when no
command touches `k`. -/
def lastEffect : List BatchCmd → Key → Option (Option Value)
  | [], _ => none
  | c :: rest, k =>
    match lastEffect rest k with
    | some e => some e
    | none => if c.key == k then some c.effect else none

/-- Total version of the `apply_batch` loop on well-shaped commands. -/
def applyCmds : HMap → List BatchCmd → HMap
  | m, [] => m
  | m, BatchCmd.ins k v :: rest => applyCmds (hmInsert m k v) rest
  | m, BatchCmd.rem k :: rest => applyCmds ((hmRemove m k).2) rest

/-- A call to one of the two `ConfigBuilder` setters. -/
inductive CfgCmd
  | set_path (s : String)
  | set_read_only (b : Bool)
  deriving DecidableEq

/-- Apply a sequence of setter calls to a builder (fluent chaining). -/
def applyCfg : ConfigBuilder → List CfgCmd → ConfigBuilder
  | b, [] => b
  | b, CfgCmd.set_path s :: rest => applyCfg (b.set_path s) rest
  | b, CfgCmd.set_read_only v :: rest => applyCfg (b.set_read_only v) rest

/-- The last path value set by `cmds`, if any. -/
def lastPathOpt : List CfgCmd → Option String
  | [] => none
  | c :: rest =>
    match lastPathOpt rest with
    | some s => some s
    | none =>
      match c with
      | CfgCmd.set_path s => some s
      | CfgCmd.set_read_only _ => none

/-- The last read-only value set by `cmds`, if any. -/
def lastReadOnlyOpt : List CfgCmd → Option Bool
  | [] => none
  | c :: rest =>
    match lastReadOnlyOpt rest with
    | some v => some v
    | none =>
      match c with
      | CfgCmd.set_path _ => none
      | CfgCmd.set_read_only v => some v

/-- The spec's cursor-resumption protocol: call `iter_keys`, and while
`list_end` is `false` resume with the last key of the previous page.
`fuel` bounds the number of calls; `none` means the scan did not finish
within `fuel` calls or could not resume. -/
def MemDb.scanPages (s : MemDb) : Nat → Option Key → Option (List (List Key))
  | 0, _ => none
  | fuel + 1, cursor =>
    match s.iter_keys cursor with
    | .error _ => none
    | .ok kl =>
      if kl.list_end then some [kl.keys]
      else
        match kl.keys.getLast? with
        | none => none
        | some k => (s.scanPages fuel (some k)).map (fun pages => kl.keys :: pages)

/-- A database of 1001 distinct keys in enumeration order. -/
def bigDb : MemDb := ⟨(List.range 1001).map (fun n => ([n], ([] : Value)))⟩

/-- With no cursor the loop pushes every key and never checks the bound:
the page is the whole enumeration and `list_end` stays `true`. -/
theorem iterKeysGo_none (ks acc : List Key) :
    iterKeysGo none ks false acc = ⟨acc ++ ks, true⟩ := by
  induction ks generalizing acc with
  | nil => simp [iterKeysGo]
  | cons k rest ih => simp [iterKeysGo, ih]

/-- Keys before the cursor match are skipped without being recorded. -/
theorem iterKeysGo_skip (k : Key) (pre rest acc : List Key) (hk : k ∉ pre) :
    iterKeysGo (some k) (pre ++ rest) false acc = iterKeysGo (some k) rest false acc := by
  induction pre with
  | nil => rfl
  | cons a pre ih =>
    have h1 : ¬(a = k) := fun h => hk (by simp [h])
    have h2 : k ∉ pre := fun h => hk (by simp [h])
    simp [iterKeysGo, h1, ih h2]

/-- Meeting the cursor key switches the loop into capture mode without
recording the cursor key itself. -/
theorem iterKeysGo_found (k : Key) (rest acc : List Key) :
    iterKeysGo (some k) (k :: rest) false acc = iterKeysGo (some k) rest true acc := by
  simp [iterKeysGo]

/-- In capture mode the loop pushes keys until the page reaches
`MAX_ITER_KEYS`, reporting `list_end = false` exactly when it is cut off
by the bound. -/
theorem iterKeysGo_capture (sk : Option Key) (ks acc : List Key)
    (h : acc.length < MAX_ITER_KEYS) :
    iterKeysGo sk ks true acc =
      ⟨acc ++ ks.take (MAX_ITER_KEYS - acc.length),
       decide (ks.length < MAX_ITER_KEYS - acc.length)⟩ := by
  induction ks generalizing acc with
  | nil =>
    have h0 : (0:Nat) < MAX_ITER_KEYS - acc.length := by omega
    simp [iterKeysGo, h0]
  | cons a rest ih =>
    have hlen1 : (acc ++ [a]).length = acc.length + 1 := by simp
    simp only [iterKeysGo, Bool.true_eq_false, if_false]
    by_cases hfull : MAX_ITER_KEYS ≤ (acc ++ [a]).length
    · rw [if_pos hfull]
      have htake : MAX_ITER_KEYS - acc.length = 1 := by omega
      have hend : ¬((a :: rest).length < MAX_ITER_KEYS - acc.length) := by
        simp only [List.length_cons]
        omega
      simp [htake, List.take_succ_cons, hend]
    · rw [if_neg hfull, ih (acc ++ [a]) (by omega)]
      have hsub : MAX_ITER_KEYS - acc.length = (MAX_ITER_KEYS - (acc ++ [a]).length) + 1 := by
        omega
      rw [hsub, List.take_succ_cons]
      have hiff : (rest.length < MAX_ITER_KEYS - (acc ++ [a]).length) ↔
          ((a :: rest).length < (MAX_ITER_KEYS - (acc ++ [a]).length) + 1) := by
        simp only [List.length_cons]
        omega
      simp [hiff, List.append_assoc]

/-- Embeds `iter_keys` with no cursor returns the whole enumeration (however
long) and `list_end = true`. -/
theorem iter_keys_none_eq (s : MemDb) :
    s.iter_keys none = .ok ⟨s.db.map Prod.fst, true⟩ := by
  simp [MemDb.iter_keys, iterKeysGo_none]

/-- Embeds `iter_keys` with a cursor present in the enumeration: the page is the
first `MAX_ITER_KEYS` keys strictly after the cursor, and `list_end` is
`false` exactly when at least `MAX_ITER_KEYS` keys follow the cursor. -/
theorem iter_keys_found_eq (pre post : HMap) (k : Key) (v : Value)
    (hk : k ∉ pre.map Prod.fst) :
    MemDb.iter_keys ⟨pre ++ (k, v) :: post⟩ (some k) =
      .ok ⟨(post.map Prod.fst).take MAX_ITER_KEYS,
           decide ((post.map Prod.fst).length < MAX_ITER_KEYS)⟩ := by
  unfold MemDb.iter_keys
  rw [show (MemDb.mk (pre ++ (k, v) :: post)).db = pre ++ (k, v) :: post from rfl]
  rw [List.map_append, List.map_cons]
  rw [iterKeysGo_skip k (pre.map Prod.fst) _ [] hk]
  rw [show ((k, v) : Key × Value).1 = k from rfl]
  rw [iterKeysGo_found, iterKeysGo_capture (some k) (post.map Prod.fst) []
    (by simp [MAX_ITER_KEYS])]
  simp

/-- Embeds `iter_keys` with a cursor absent from the enumeration returns an
empty page with `list_end = true`. -/
theorem iter_keys_absent_eq (s : MemDb) (k : Key) (hk : k ∉ s.db.map Prod.fst) :
    s.iter_keys (some k) = .ok ⟨[], true⟩ := by
  unfold MemDb.iter_keys
  rw [show s.db.map Prod.fst = s.db.map Prod.fst ++ [] by simp]
  rw [iterKeysGo_skip k (s.db.map Prod.fst) [] [] hk]
  rfl

/-- After an in-place replacement of key `k`, lookup of `k` finds the new
binding (given the key was bound). -/
theorem find?_replace_self (m : HMap) (k : Key) (v : Value)
    (h : m.any (fun p => p.1 == k)) :
    (m.map (fun p => if p.1 == k then (k, v) else p)).find? (fun p => p.1 == k)
      = some (k, v) := by
  induction m with
  | nil => simp at h
  | cons a m ih =>
    simp only [List.map_cons]
    by_cases ha : (a.1 == k) = true
    · rw [if_pos ha]
      exact List.find?_cons_of_pos _ (by simp)
    · rw [if_neg ha, List.find?_cons_of_neg (p := fun q : Key × Value => q.1 == k) _ ha]
      apply ih
      rcases List.any_eq_true.1 h with ⟨x, hx, hpx⟩
      rcases List.mem_cons.1 hx with h1 | h1
      · exact absurd (h1 ▸ hpx) ha
      · exact List.any_eq_true.2 ⟨x, h1, hpx⟩

/-- An in-place replacement of key `k` does not disturb lookups of other
keys. -/
theorem find?_replace_other (m : HMap) (k kq : Key) (v : Value) (hne : kq ≠ k) :
    (m.map (fun p => if p.1 == k then (k, v) else p)).find? (fun p => p.1 == kq)
      = m.find? (fun p => p.1 == kq) := by
  induction m with
  | nil => rfl
  | cons a m ih =>
    simp only [List.map_cons]
    by_cases ha : (a.1 == k) = true
    · rw [if_pos ha]
      have hak : a.1 = k := by simpa using ha
      have h1 : ¬((((k, v) : Key × Value).1 == kq) = true) := by
        simp only [beq_iff_eq]
        exact fun hh => hne hh.symm
      have h2 : ¬((a.1 == kq) = true) := by
        simp only [beq_iff_eq, hak]
        exact fun hh => hne hh.symm
      rw [List.find?_cons_of_neg (p := fun q : Key × Value => q.1 == kq) _ h1,
        List.find?_cons_of_neg (p := fun q : Key × Value => q.1 == kq) _ h2, ih]
    · rw [if_neg ha]
      by_cases haq : (a.1 == kq) = true
      · rw [List.find?_cons_of_pos (p := fun q : Key × Value => q.1 == kq) _ haq,
          List.find?_cons_of_pos (p := fun q : Key × Value => q.1 == kq) _ haq]
      · rw [List.find?_cons_of_neg (p := fun q : Key × Value => q.1 == kq) _ haq,
          List.find?_cons_of_neg (p := fun q : Key × Value => q.1 == kq) _ haq, ih]

/-- Embeds `HashMap` law: `get` after `insert`. -/
theorem hmGet_insert (m : HMap) (k kq : Key) (v : Value) :
    hmGet (hmInsert m k v) kq = if kq = k then some v else hmGet m kq := by
  unfold hmGet hmInsert
  by_cases hpres : m.any (fun p => p.1 == k) = true
  · rw [if_pos hpres]
    by_cases hkq : kq = k
    · subst hkq
      rw [find?_replace_self m kq v hpres]
      simp
    · rw [find?_replace_other m k kq v hkq, if_neg hkq]
  · rw [if_neg hpres]
    by_cases hkq : kq = k
    · subst hkq
      have hnone : m.find? (fun p => p.1 == kq) = none := by
        rw [List.find?_eq_none]
        intro x hx hpx
        exact hpres (List.any_eq_true.2 ⟨x, hx, hpx⟩)
      rw [List.find?_append, hnone]
      simp
    · have h1 : [((k, v) : Key × Value)].find? (fun p => p.1 == kq) = none := by
        rw [List.find?_eq_none]
        intro x hx hpx
        rw [List.mem_singleton.1 hx] at hpx
        exact hkq (Eq.symm (by simpa using hpx))
      rw [List.find?_append, h1, if_neg hkq]
      cases m.find? (fun p => p.1 == kq) <;> rfl

/-- After filtering out key `k`, lookup of `k` fails. -/
theorem find?_filter_ne_none (m : HMap) (k : Key) :
    (m.filter (fun q => !(q.1 == k))).find? (fun p => p.1 == k) = none := by
  rw [List.find?_eq_none]
  intro x hx hpx
  have hmem := List.mem_filter.1 hx
  simp [hpx] at hmem

/-- Filtering out key `k` does not disturb lookups of other keys. -/
theorem find?_filter_ne_other (m : HMap) (k kq : Key) (hkq : kq ≠ k) :
    (m.filter (fun q => !(q.1 == k))).find? (fun p => p.1 == kq)
      = m.find? (fun p => p.1 == kq) := by
  induction m with
  | nil => rfl
  | cons a m ih =>
    by_cases hak : (a.1 == k) = true
    · have hpa : (!(a.1 == k)) = false := by rw [hak]; rfl
      have hak2 : a.1 = k := by simpa using hak
      have haq : ¬((a.1 == kq) = true) := by
        simp only [beq_iff_eq, hak2]
        exact fun hh => hkq hh.symm
      simp only [List.filter_cons, hpa, Bool.false_eq_true, if_false]
      rw [List.find?_cons_of_neg (p := fun q : Key × Value => q.1 == kq) _ haq, ih]
    · have hfa : (a.1 == k) = false := Bool.eq_false_iff.2 hak
      have hpa : (!(a.1 == k)) = true := by rw [hfa]; rfl
      rw [List.filter_cons, if_pos hpa]
      by_cases haq : (a.1 == kq) = true
      · rw [List.find?_cons_of_pos (p := fun q : Key × Value => q.1 == kq) _ haq,
          List.find?_cons_of_pos (p := fun q : Key × Value => q.1 == kq) _ haq]
      · rw [List.find?_cons_of_neg (p := fun q : Key × Value => q.1 == kq) _ haq,
          List.find?_cons_of_neg (p := fun q : Key × Value => q.1 == kq) _ haq, ih]

/-- The value component of `HashMap::remove` is the prior `get`. -/
theorem hmRemove_fst (m : HMap) (k : Key) : (hmRemove m k).1 = hmGet m k := by
  cases hf : m.find? (fun p => p.1 == k) with
  | none => simp [hmRemove, hmGet, hf]
  | some p => simp [hmRemove, hmGet, hf]

/-- Embeds `HashMap` law: `get` after `remove`. -/
theorem hmGet_remove (m : HMap) (k kq : Key) :
    hmGet (hmRemove m k).2 kq = if kq = k then none else hmGet m kq := by
  cases hf : m.find? (fun p => p.1 == k) with
  | none =>
    simp only [hmRemove, hf]
    by_cases hkq : kq = k
    · subst hkq
      rw [if_pos rfl]
      unfold hmGet
      rw [hf]
      rfl
    · rw [if_neg hkq]
  | some p =>
    simp only [hmRemove, hf]
    by_cases hkq : kq = k
    · subst hkq
      rw [if_pos rfl]
      unfold hmGet
      rw [find?_filter_ne_none]
      rfl
    · rw [if_neg hkq]
      unfold hmGet
      rw [find?_filter_ne_other m k kq hkq]

/-- Folding the building calls from any starting batch appends the
corresponding mutation descriptors in order. -/
theorem buildBatch_foldl (cmds : List BatchCmd) (b : Batch) :
    (cmds.foldl
      (fun b c =>
        match c with
        | BatchCmd.ins k v => b.insert k v
        | BatchCmd.rem k => b.remove k)
      b).ops = b.ops ++ cmds.map BatchCmd.toMutation := by
  induction cmds generalizing b with
  | nil => simp
  | cons c rest ih =>
    cases c with
    | ins k v =>
      rw [List.foldl_cons, ih]
      simp [Batch.insert, BatchCmd.toMutation]
    | rem k =>
      rw [List.foldl_cons, ih]
      simp [Batch.remove, BatchCmd.toMutation]

/-- The ops of a batch built by a sequence of `insert`/`remove` calls. -/
theorem buildBatch_ops (cmds : List BatchCmd) :
    (buildBatch cmds).ops = cmds.map BatchCmd.toMutation := by
  rw [buildBatch, buildBatch_foldl]
  rfl

/-- On mutations produced by the batch builder, the `apply_batch` loop
never panics and computes `applyCmds`. -/
theorem applyOps_build (cmds : List BatchCmd) (m : HMap) :
    applyOps m (cmds.map BatchCmd.toMutation) = some (applyCmds m cmds) := by
  induction cmds generalizing m with
  | nil => rfl
  | cons c rest ih =>
    cases c with
    | ins k v => simp [applyOps, applyCmds, BatchCmd.toMutation, ih]
    | rem k => simp [applyOps, applyCmds, BatchCmd.toMutation, ih]

/-- Last-writer-wins: the state after applying the commands answers `get`
with the effect of the last command touching the key, or the prior value
when no command touches it. -/
theorem applyCmds_get (cmds : List BatchCmd) (m : HMap) (k : Key) :
    hmGet (applyCmds m cmds) k = (lastEffect cmds k).getD (hmGet m k) := by
  induction cmds generalizing m with
  | nil => rfl
  | cons c rest ih =>
    cases c with
    | ins ck cv =>
      rw [show applyCmds m (BatchCmd.ins ck cv :: rest) = applyCmds (hmInsert m ck cv) rest
        from rfl]
      rw [ih]
      cases hle : lastEffect rest k with
      | some e => simp [lastEffect, hle]
      | none =>
        simp only [lastEffect, hle, hmGet_insert, BatchCmd.key, BatchCmd.effect]
        by_cases hk : k = ck
        · simp [hk]
        · have : ¬(ck = k) := fun hh => hk hh.symm
          simp [hk, this]
    | rem ck =>
      rw [show applyCmds m (BatchCmd.rem ck :: rest) = applyCmds ((hmRemove m ck).2) rest
        from rfl]
      rw [ih]
      cases hle : lastEffect rest k with
      | some e => simp [lastEffect, hle]
      | none =>
        simp only [lastEffect, hle, hmGet_remove, BatchCmd.key, BatchCmd.effect]
        by_cases hk : k = ck
        · simp [hk]
        · have : ¬(ck = k) := fun hh => hk hh.symm
          simp [hk, this]

/-- The path option after a chain of setter calls is the last path set,
or whatever it was before the chain. -/
theorem applyCfg_path (b : ConfigBuilder) (cmds : List CfgCmd) :
    (applyCfg b cmds).path = (lastPathOpt cmds).or b.path := by
  induction cmds generalizing b with
  | nil => rfl
  | cons c rest ih =>
    cases c with
    | set_path s =>
      rw [show applyCfg b (CfgCmd.set_path s :: rest) = applyCfg (b.set_path s) rest from rfl,
        ih]
      cases h : lastPathOpt rest <;>
        simp [lastPathOpt, h, ConfigBuilder.set_path]
    | set_read_only v =>
      rw [show applyCfg b (CfgCmd.set_read_only v :: rest)
          = applyCfg (b.set_read_only v) rest from rfl,
        ih]
      cases h : lastPathOpt rest <;>
        simp [lastPathOpt, h, ConfigBuilder.set_read_only]

/-- The read-only option after a chain of setter calls is the last value
set, or whatever it was before the chain. -/
theorem applyCfg_read_only (b : ConfigBuilder) (cmds : List CfgCmd) :
    (applyCfg b cmds).read_only = (lastReadOnlyOpt cmds).or b.read_only := by
  induction cmds generalizing b with
  | nil => rfl
  | cons c rest ih =>
    cases c with
    | set_path s =>
      rw [show applyCfg b (CfgCmd.set_path s :: rest) = applyCfg (b.set_path s) rest from rfl,
        ih]
      cases h : lastReadOnlyOpt rest <;>
        simp [lastReadOnlyOpt, h, ConfigBuilder.set_path]
    | set_read_only v =>
      rw [show applyCfg b (CfgCmd.set_read_only v :: rest)
          = applyCfg (b.set_read_only v) rest from rfl,
        ih]
      cases h : lastReadOnlyOpt rest <;>
        simp [lastReadOnlyOpt, h, ConfigBuilder.set_read_only]

/-- Embeds `MemDb::get` always succeeds with the backend lookup. -/
theorem MemDb.get_eq (s : MemDb) (k : Key) : s.get k = .ok (hmGet s.db k) := by
  unfold MemDb.get
  cases hmGet s.db k <;> rfl

/-- Embeds `MemDb::del` on a missing key: `Ok(false)`, state unchanged. -/
theorem MemDb.del_eq_of_none (s : MemDb) (k : Key)
    (h : s.db.find? (fun p => p.1 == k) = none) :
    s.del k = .ok (false, s) := by
  unfold MemDb.del hmRemove
  rw [h]

/-- Embeds `MemDb::del` on a bound key: `Ok(true)`, binding dropped. -/
theorem MemDb.del_eq_of_some (s : MemDb) (k : Key) (q : Key × Value)
    (h : s.db.find? (fun p => p.1 == k) = some q) :
    s.del k = .ok (true, ⟨s.db.filter (fun x => !(x.1 == k))⟩) := by
  unfold MemDb.del hmRemove
  rw [h]

/-- C1: for every batch built via `Batch::insert`/`Batch::remove` and every
pre-state, `apply_batch` succeeds, and afterwards `get k` returns the
effect of the last mutation in the batch touching `k` (`some v` for a
final insert, `none` for a final remove), or `k`'s pre-batch value when no
mutation touches `k`; since `apply_batch` never returns an error on such
batches, the error case of the claim is vacuously satisfied. -/
theorem apply_batch_last_mutation_wins (cmds : List BatchCmd) (s : MemDb) :
    ∃ s2 : MemDb, s.apply_batch (buildBatch cmds) = some (Except.ok (true, s2)) ∧
      ∀ k : Key, s2.get k = Except.ok ((lastEffect cmds k).getD (hmGet s.db k)) := by
  refine ⟨⟨applyCmds s.db cmds⟩, ?_, ?_⟩
  · rw [MemDb.apply_batch, buildBatch_ops, applyOps_build]
    rfl
  · intro k
    rw [MemDb.get_eq]
    rw [show (MemDb.mk (applyCmds s.db cmds)).db = applyCmds s.db cmds from rfl]
    rw [applyCmds_get]

/-- C5: `clear` succeeds, leaving a state in which every `get` returns
`none` and `iter_keys(None)` returns an empty page with `list_end = true`;
a second `clear` returns the same state (idempotence). -/
theorem clear_spec (s : MemDb) :
    ∃ s2 : MemDb, s.clear = .ok (true, s2) ∧
      (∀ k : Key, s2.get k = .ok none) ∧
      s2.iter_keys none = .ok ⟨[], true⟩ ∧
      s2.clear = .ok (true, s2) := by
  refine ⟨⟨[]⟩, rfl, fun k => rfl, ?_, rfl⟩
  rw [iter_keys_none_eq]
  rfl

/-- C6: `del k` returns `true` exactly when a prior `get k` would have
returned `some`, afterwards `get k` returns `none`, and an immediately
repeated `del k` returns `false` and leaves the state unchanged. -/
theorem del_spec (s : MemDb) (k : Key) :
    ∃ (b : Bool) (s2 : MemDb), s.del k = .ok (b, s2) ∧
      (b = true ↔ ∃ v : Value, s.get k = .ok (some v)) ∧
      s2.get k = .ok none ∧
      s2.del k = .ok (false, s2) := by
  cases hfind : s.db.find? (fun p => p.1 == k) with
  | none =>
    have hget : hmGet s.db k = none := by rw [hmGet, hfind]; rfl
    refine ⟨false, s, ?_, ?_, ?_, ?_⟩
    · exact MemDb.del_eq_of_none s k hfind
    · constructor
      · intro h
        exact absurd h (by simp)
      · rintro ⟨v, hv⟩
        rw [MemDb.get_eq, hget] at hv
        exact absurd hv (by simp)
    · rw [MemDb.get_eq, hget]
    · exact MemDb.del_eq_of_none s k hfind
  | some q =>
    refine ⟨true, ⟨s.db.filter (fun x => !(x.1 == k))⟩, ?_, ?_, ?_, ?_⟩
    · exact MemDb.del_eq_of_some s k q hfind
    · constructor
      · intro _
        exact ⟨q.2, by rw [MemDb.get_eq, hmGet, hfind]; rfl⟩
      · intro _
        rfl
    · rw [MemDb.get_eq]
      rw [show (MemDb.mk (s.db.filter (fun x => !(x.1 == k)))).db
        = s.db.filter (fun x => !(x.1 == k)) from rfl]
      rw [hmGet, find?_filter_ne_none]
      rfl
    · exact MemDb.del_eq_of_none _ k (find?_filter_ne_none s.db k)

/-- C7: every operation of the reference backend (`get`, `put`, `del`,
`clear`, `apply_batch` on a built batch, `iter_keys`, and the driver's
`start_db`) returns the `Ok` variant; the error branch is never taken. -/
theorem reference_backend_all_ok (s : MemDb) (k : Key) (v : Value) (c : Option Key)
    (cmds : List BatchCmd) (d : MemDriver) (cfg : Config) :
    (∃ r, s.get k = Except.ok r) ∧ (∃ r, s.put k v = Except.ok r) ∧
    (∃ r, s.del k = Except.ok r) ∧ (∃ r, s.clear = Except.ok r) ∧
    (∃ r, s.iter_keys c = Except.ok r) ∧
    (∃ r, s.apply_batch (buildBatch cmds) = some (Except.ok r)) ∧
    (∃ r, d.start_db cfg = Except.ok r) := by
  refine ⟨⟨hmGet s.db k, MemDb.get_eq s k⟩, ⟨_, rfl⟩, ?_, ⟨_, rfl⟩, ⟨_, rfl⟩, ?_, ⟨_, rfl⟩⟩
  · simp only [MemDb.del]
    cases hmRemove s.db k with
    | mk o m2 => cases o <;> exact ⟨_, rfl⟩
  · refine ⟨(true, ⟨applyCmds s.db cmds⟩), ?_⟩
    rw [MemDb.apply_batch, buildBatch_ops, applyOps_build]
    rfl

set_option maxRecDepth 8000 in
/-- C2: the claimed page bound fails in the code: with cursor `None` the
loop pushes keys on the branch that never checks `MAX_ITER_KEYS`, so a
database of 1001 keys yields a single page of 1001 keys. -/
theorem iter_keys_none_page_unbounded :
    ∃ kl : KeyList, bigDb.iter_keys none = Except.ok kl ∧
      kl.keys.length = 1001 ∧ MAX_ITER_KEYS < kl.keys.length := by
  have hlen : (bigDb.db.map Prod.fst).length = 1001 := by
    simp [bigDb]
  refine ⟨⟨bigDb.db.map Prod.fst, true⟩, iter_keys_none_eq bigDb, hlen, ?_⟩
  rw [show (⟨bigDb.db.map Prod.fst, true⟩ : KeyList).keys = bigDb.db.map Prod.fst from rfl,
    hlen, MAX_ITER_KEYS]
  omega

set_option maxRecDepth 8000 in
/-- C3 is refuted at a concrete input: with cursor `[0]` on a database of
1001 keys, the page holds all 1000 keys after the cursor (nothing remains
beyond the page), yet `list_end` is reported `false` because the page hit
`MAX_ITER_KEYS` exactly. -/
theorem iter_keys_list_end_cex :
    ∃ kl : KeyList, bigDb.iter_keys (some [0]) = Except.ok kl ∧
      kl.list_end = false ∧
      bigDb.db.map Prod.fst = [0] :: kl.keys := by
  have hbig : bigDb.db
      = ([0], ([] : Value)) :: (List.range 1000).map (fun n => ([n + 1], ([] : Value))) := by
    rw [show bigDb.db = (List.range 1001).map (fun n => ([n], ([] : Value))) from rfl]
    rw [List.range_succ_eq_map, List.map_cons, List.map_map]
    rfl
  have hmem : ([0] : Key) ∉ (([] : HMap).map Prod.fst) := by simp
  have h := iter_keys_found_eq [] ((List.range 1000).map (fun n => ([n + 1], ([] : Value))))
      [0] [] hmem
  have hpostkeys : (((List.range 1000).map (fun n => ([n + 1], ([] : Value)))).map Prod.fst)
      = (List.range 1000).map (fun n => ([n + 1] : Key)) := by
    rw [List.map_map]
    rfl
  have hplen : ((List.range 1000).map (fun n : Nat => ([n + 1] : Key))).length = 1000 := by
    simp
  rw [hpostkeys] at h
  rw [List.take_of_length_le (by rw [hplen, MAX_ITER_KEYS])] at h
  have hdecide : decide (((List.range 1000).map (fun n : Nat => ([n + 1] : Key))).length
      < MAX_ITER_KEYS) = false := by
    rw [hplen, MAX_ITER_KEYS]
    rfl
  rw [hdecide] at h
  have hdb : bigDb
      = (⟨([0], ([] : Value)) :: (List.range 1000).map (fun n => ([n + 1], ([] : Value)))⟩
          : MemDb) := by
    rw [show bigDb = MemDb.mk bigDb.db from rfl, hbig]
  refine ⟨⟨(List.range 1000).map (fun n => ([n + 1] : Key)), false⟩, ?_, rfl, ?_⟩
  · rw [hdb]
    exact h
  · rw [hbig, List.map_cons, hpostkeys]

/-- C3 (amended): `list_end` is `false` iff at least `MAX_ITER_KEYS` keys
follow the cursor in the backend's enumeration order — the page being the
first `MAX_ITER_KEYS` of them — so when exactly `MAX_ITER_KEYS` keys
follow, the page exhausts the key space yet reports `list_end = false`;
with no cursor the whole enumeration is returned and `list_end = true`. -/
theorem iter_keys_list_end_amended (s : MemDb) (pre post : HMap) (k : Key) (v : Value)
    (hk : k ∉ pre.map Prod.fst) :
    MemDb.iter_keys ⟨pre ++ (k, v) :: post⟩ (some k)
      = .ok ⟨(post.map Prod.fst).take MAX_ITER_KEYS,
             decide ((post.map Prod.fst).length < MAX_ITER_KEYS)⟩ ∧
    s.iter_keys none = .ok ⟨s.db.map Prod.fst, true⟩ :=
  ⟨iter_keys_found_eq pre post k v hk, iter_keys_none_eq s⟩

/-- Witness for the amended C3 at a concrete input. -/
theorem iter_keys_list_end_amended_witness :
    (([3] : Key) ∉ (([] : HMap).map Prod.fst)) ∧
    (MemDb.iter_keys ⟨[] ++ ([3], ([2] : Value)) :: [([4], ([5] : Value))]⟩ (some [3])
        = .ok ⟨(([([4], ([5] : Value))] : HMap).map Prod.fst).take MAX_ITER_KEYS,
               decide ((([([4], ([5] : Value))] : HMap).map Prod.fst).length < MAX_ITER_KEYS)⟩ ∧
      MemDb.iter_keys ⟨[]⟩ none = .ok ⟨(([] : HMap)).map Prod.fst, true⟩) :=
  ⟨by simp, iter_keys_list_end_amended ⟨[]⟩ [] [([4], [5])] [3] [2] (by simp)⟩

/-- C4: on an unchanged database (duplicate-free key enumeration, as for
a real `HashMap`), the cursor-resumption scan starting from `None`
terminates — already at the first page, since the unbounded `None` page
reports `list_end = true` — and the concatenation of the returned pages
is exactly the key enumeration, each key once. -/
theorem scan_visits_each_key_once (s : MemDb) (fuel : Nat) (hf : 1 ≤ fuel)
    (hnd : (s.db.map Prod.fst).Nodup) :
    ∃ pages : List (List Key), s.scanPages fuel none = some pages ∧
      pages.flatten = s.db.map Prod.fst ∧ pages.flatten.Nodup := by
  obtain ⟨f, rfl⟩ : ∃ f, fuel = f + 1 := ⟨fuel - 1, by omega⟩
  refine ⟨[s.db.map Prod.fst], ?_, by simp, by simpa using hnd⟩
  simp [MemDb.scanPages, iter_keys_none_eq]

/-- Witness for C4 at a concrete two-key database. -/
theorem scan_visits_each_key_once_witness :
    ((1 ≤ 1) ∧ ((MemDb.mk [([1], ([5] : Value)), ([2], ([6] : Value))]).db.map
      Prod.fst).Nodup) ∧
    (∃ pages : List (List Key),
      (MemDb.mk [([1], ([5] : Value)), ([2], ([6] : Value))]).scanPages 1 none = some pages ∧
      pages.flatten = (MemDb.mk [([1], ([5] : Value)), ([2], ([6] : Value))]).db.map Prod.fst ∧
      pages.flatten.Nodup) :=
  ⟨⟨by decide, by decide⟩,
    scan_visits_each_key_once ⟨[([1], [5]), ([2], [6])]⟩ 1 (by decide) (by decide)⟩

/-- C8: `new().build()` yields the defaults `path = "./db"`,
`read_only = false`; each setter returns the builder (so chains compose),
and after any chain of setter calls `build()` yields the last value set
per option, or the default when that option was never set. -/
theorem config_builder_spec (cmds : List CfgCmd) :
    ConfigBuilder.new.build = ⟨"./db", false⟩ ∧
    (applyCfg ConfigBuilder.new cmds).build
      = ⟨(lastPathOpt cmds).getD "./db", (lastReadOnlyOpt cmds).getD false⟩ := by
  refine ⟨rfl, ?_⟩
  have hp := applyCfg_path ConfigBuilder.new cmds
  have hr := applyCfg_read_only ConfigBuilder.new cmds
  rw [show ConfigBuilder.new.path = none from rfl] at hp
  rw [show ConfigBuilder.new.read_only = none from rfl] at hr
  rw [Option.or_none] at hp hr
  unfold ConfigBuilder.build
  rw [hp, hr]
  cases lastPathOpt cmds <;> cases lastReadOnlyOpt cmds <;> rfl

/-- C9: a `Some` cursor whose key is not in the database's key set yields
an empty page with `list_end = true`, regardless of how many keys the
database contains. -/
theorem iter_keys_absent_cursor (s : MemDb) (k : Key) (hk : k ∉ s.db.map Prod.fst) :
    s.iter_keys (some k) = .ok ⟨[], true⟩ :=
  iter_keys_absent_eq s k hk

/-- Witness for C9 at a concrete two-key database. -/
theorem iter_keys_absent_cursor_witness :
    (([9] : Key) ∉ (([([1], ([7] : Value)), ([2], ([8] : Value))] : HMap).map Prod.fst)) ∧
    MemDb.iter_keys ⟨[([1], ([7] : Value)), ([2], ([8] : Value))]⟩ (some [9])
      = .ok ⟨[], true⟩ :=
  ⟨by decide, iter_keys_absent_cursor ⟨[([1], [7]), ([2], [8])]⟩ [9] (by decide)⟩

/-- C10: `Batch::insert` appends an `Insert` mutation carrying
`value = some _` and `Batch::remove` appends a `Remove` mutation carrying
`value = none`; hence on any batch built through
`Batch::default`/`insert`/`remove` every mutation is well-shaped and the
`unwrap()` in `apply_batch` never panics. -/
theorem batch_shape_no_panic (b : Batch) (k : Key) (v : Value) (cmds : List BatchCmd)
    (s : MemDb) :
    (b.insert k v).ops = b.ops ++ [⟨MutationOp.Insert, k, some v⟩] ∧
    (b.remove k).ops = b.ops ++ [⟨MutationOp.Remove, k, none⟩] ∧
    (∀ mu ∈ (buildBatch cmds).ops,
      (mu.op = MutationOp.Insert → ∃ w : Value, mu.value = some w) ∧
      (mu.op = MutationOp.Remove → mu.value = none)) ∧
    (s.apply_batch (buildBatch cmds)).isSome = true := by
  refine ⟨rfl, rfl, ?_, ?_⟩
  · rw [buildBatch_ops]
    intro mu hmu
    obtain ⟨c, hc, rfl⟩ := List.mem_map.1 hmu
    cases c with
    | ins ck cv =>
      refine ⟨fun _ => ⟨cv, rfl⟩, fun h => ?_⟩
      simp [BatchCmd.toMutation] at h
    | rem ck =>
      refine ⟨fun h => ?_, fun _ => rfl⟩
      simp [BatchCmd.toMutation] at h
  · rw [MemDb.apply_batch, buildBatch_ops, applyOps_build]
    rfl
